import Mathlib

/-!
Verification of the Papillon chat UI core (src/app/(features)/chats.tsx and the
two ChatModal components in src/unnamed/part_000).

JavaScript strings are sequences of UTF-16 code units; we model them as
`List Nat` (each entry one code unit).  All string-processing functions below
are direct translations of the regex-based JavaScript code:

  stripHtmlTags  : html.replace(/<[^>]*>/g, "")
  decodeHtmlEntities :
      .replace(/&nbsp;|&#160;/g, " ")  .replace(/&amp;/g, "&")
      .replace(/&lt;/g, "<")           .replace(/&gt;/g, ">")
      .replace(/&quot;/g, QUOTE)       .replace(/&#39;/g, APOSTROPHE)
      .replace(/&#(\d+);/g, fromCharCode(Number(code)))
      .replace(/&#x([0-9A-Fa-f]+);/g, fromCharCode(parseInt(hex, 16)))
      .replace(/\s{2,}/g, " ").trim()

The scanners are written with an explicit skip counter (first argument) so that
recursion is structural on the list: `go (k+1) (c :: rest) = go k rest` models
continuing the scan `k` positions further right, exactly what the regex engine
does after a replacement of length `k+1`.
-/

/-- A JavaScript string: a list of UTF-16 code units. -/
abbrev JStr := List Nat

/-- UTF-16 encoding of one Unicode scalar value (1 unit below 0x10000,
a surrogate pair above). -/
def utf16Char (c : Char) : List Nat :=
  if c.toNat < 65536 then [c.toNat]
  else [55296 + (c.toNat - 65536) / 1024, 56320 + (c.toNat - 65536) % 1024]

/-- UTF-16 code units of a Lean string literal. -/
def utf16 (s : String) : JStr := (s.data.map utf16Char).flatten

/-- The code units matched by JavaScript regex `\s` and removed by
`String.prototype.trim`. -/
def jsWsList : JStr :=
  [9, 10, 11, 12, 13, 32, 160, 5760,
   8192, 8193, 8194, 8195, 8196, 8197, 8198, 8199, 8200, 8201, 8202,
   8232, 8233, 8239, 8287, 12288, 65279]

/-- JavaScript whitespace test on a code unit. -/
def jsWs (n : Nat) : Bool := jsWsList.contains n

/-- Scanner for `html.replace(/<[^>]*>/g, "")`.
`inTag = true` means a `<` has been read and not yet closed; `pend` holds (in
reverse) the units consumed since that `<`, so that a `<` never followed by `>`
is emitted verbatim at the end of the input, exactly as the regex engine leaves
an unmatched fragment untouched. -/
def stripGo : JStr → JStr → Bool → JStr
  | [], pend, inTag => if inTag then pend.reverse else []
  | c :: rest, pend, true =>
      if c = 62 then stripGo rest [] false else stripGo rest (c :: pend) true
  | c :: rest, _, false =>
      if c = 60 then stripGo rest [60] true else c :: stripGo rest [] false

/-- Definition of `stripHtmlTags` from the source (both files define it identically). -/
def stripHtmlTags (s : JStr) : JStr := stripGo s [] false

/-- Literal-pattern global replace, `s.replace(pat, rep)` for a constant
string pattern.  The `Nat` argument is the number of already-consumed units
still to skip. -/
def repLitGo (pat rep : JStr) : Nat → JStr → JStr
  | _ + 1, [] => []
  | k + 1, _ :: rest => repLitGo pat rep k rest
  | 0, [] => []
  | 0, c :: rest =>
      if pat.isPrefixOf (c :: rest) then rep ++ repLitGo pat rep (pat.length - 1) rest
      else c :: repLitGo pat rep 0 rest

/-- Pattern `&nbsp;` -/
def pNbsp : JStr := utf16 "&nbsp;"
/-- Pattern `&#160;` -/
def p160 : JStr := utf16 "&#160;"
/-- Pattern `&amp;` -/
def pAmp : JStr := utf16 "&amp;"
/-- Pattern `&lt;` -/
def pLt : JStr := utf16 "&lt;"
/-- Pattern `&gt;` -/
def pGt : JStr := utf16 "&gt;"
/-- Pattern `&quot;` -/
def pQuot : JStr := utf16 "&quot;"
/-- Pattern for the apostrophe reference: the units of ampersand, hash, 3, 9,
semicolon. -/
def pApos : JStr := [38, 35, 51, 57, 59]

/-- Scanner for `.replace(/&nbsp;|&#160;/g, " ")` (both alternatives have
length 6). -/
def repNbspGo : Nat → JStr → JStr
  | _ + 1, [] => []
  | k + 1, _ :: rest => repNbspGo k rest
  | 0, [] => []
  | 0, c :: rest =>
      if pNbsp.isPrefixOf (c :: rest) then 32 :: repNbspGo 5 rest
      else if p160.isPrefixOf (c :: rest) then 32 :: repNbspGo 5 rest
      else c :: repNbspGo 0 rest

/-- Decimal digit (regex `\d`). -/
def isDig (n : Nat) : Bool := decide (48 ≤ n ∧ n ≤ 57)

/-- Hexadecimal digit (regex `[0-9A-Fa-f]`). -/
def isHexDig (n : Nat) : Bool :=
  decide ((48 ≤ n ∧ n ≤ 57) ∨ (65 ≤ n ∧ n ≤ 70) ∨ (97 ≤ n ∧ n ≤ 102))

/-- Value of `Number` on a string of decimal digits.  This is exact for
values below 2^53: every such integer is an IEEE-754 double, so the
JavaScript conversion returns it unchanged.  At 2^53 and beyond JavaScript
rounds to the nearest double, which this unbounded model does not reproduce,
so the decoding theorems below restrict to values below 2^53. -/
def decVal (ds : JStr) : Nat := ds.foldl (fun a c => a * 10 + (c - 48)) 0

/-- Value of one hexadecimal digit unit. -/
def hexDigVal (c : Nat) : Nat :=
  if c ≤ 57 then c - 48 else if c ≤ 70 then c - 55 else c - 87

/-- Value of `parseInt(hex, 16)` on a string of hexadecimal digits.  Exact
for values below 2^53, like `decVal`; JavaScript rounds to the nearest
double beyond that, so the decoding theorems below restrict to values below
2^53. -/
def hexVal (hs : JStr) : Nat := hs.foldl (fun a c => a * 16 + hexDigVal c) 0

/-- Model of `String.fromCharCode(n)`: ToUint16 truncation, one code unit.
Its argument is exact only below 2^53 (see `decVal`, `hexVal`); the decoding
theorems below carry that bound as a hypothesis. -/
def fromCharCode (n : Nat) : JStr := [n % 65536]

/-- Scanner for `.replace(/&#(\d+);/g, ...)`: at an `&#` the greedy digit run
must be nonempty and followed by `;`; otherwise the engine moves on one
position (emitting the `&`). -/
def repDecGo : Nat → JStr → JStr
  | _ + 1, [] => []
  | k + 1, _ :: rest => repDecGo k rest
  | 0, [] => []
  | 0, 38 :: 35 :: rest =>
      let ds := rest.takeWhile isDig
      if ds.isEmpty then 38 :: repDecGo 0 (35 :: rest)
      else
        match rest.drop ds.length with
        | 59 :: _ => fromCharCode (decVal ds) ++ repDecGo (ds.length + 1) rest
        | _ => 38 :: repDecGo 0 (35 :: rest)
  | 0, c :: rest => c :: repDecGo 0 rest

/-- Scanner for `.replace(/&#x([0-9A-Fa-f]+);/g, ...)` (lowercase `x` only,
as in the source regex). -/
def repHexGo : Nat → JStr → JStr
  | _ + 1, [] => []
  | k + 1, _ :: rest => repHexGo k rest
  | 0, [] => []
  | 0, 38 :: 35 :: 120 :: rest =>
      let hs := rest.takeWhile isHexDig
      if hs.isEmpty then 38 :: repHexGo 0 (35 :: 120 :: rest)
      else
        match rest.drop hs.length with
        | 59 :: _ => fromCharCode (hexVal hs) ++ repHexGo (hs.length + 1) rest
        | _ => 38 :: repHexGo 0 (35 :: 120 :: rest)
  | 0, c :: rest => c :: repHexGo 0 rest

/-- Scanner for `.replace(/\s{2,}/g, " ")`: a maximal run of two or more
whitespace units becomes one space (unit 32); a single whitespace unit is kept
as itself.  `true` means the current run has already emitted its space and is
being swallowed. -/
def collGo : Bool → JStr → JStr
  | _, [] => []
  | true, c :: rest => if jsWs c then collGo true rest else c :: collGo false rest
  | false, c :: rest =>
      if jsWs c then
        match rest with
        | [] => [c]
        | d :: _ => if jsWs d then 32 :: collGo true rest else c :: collGo false rest
      else c :: collGo false rest

/-- Whitespace collapsing pass `.replace(/\s{2,}/g, " ")`. -/
def collapseWs (s : JStr) : JStr := collGo false s

/-- Model of `String.prototype.trim()`. -/
def trimJS (s : JStr) : JStr :=
  (((s.dropWhile jsWs).reverse).dropWhile jsWs).reverse

/-- Definition of `decodeHtmlEntities` from the source: the eight replacement passes in
source order, then whitespace collapsing and trim. -/
def decodeHtmlEntities (s : JStr) : JStr :=
  trimJS (collapseWs (repHexGo 0 (repDecGo 0
    (repLitGo pApos [39] 0 (repLitGo pQuot [34] 0 (repLitGo pGt [62] 0
    (repLitGo pLt [60] 0 (repLitGo pAmp [38] 0 (repNbspGo 0 s)))))))))

/-- The content normalizer as applied at every call site:
`decodeHtmlEntities(stripHtmlTags(content))`. -/
def normalizeContent (s : JStr) : JStr := decodeHtmlEntities (stripHtmlTags s)

/-! Data model.

`Chat` carries the fields the UI reads (`@/services/shared/chat` is not part of
the two source files; the fields are exactly those accessed by the UI code and
serialized in `openChat`).  `date` is the millisecond value
`new Date(x).getTime()`. -/

structure Chat where
  id : String
  subject : String
  recipient : String
  creator : String
  date : Int
  createdByAccount : Bool
deriving DecidableEq

structure Message where
  id : String
  author : String
  content : JStr
  date : Int
deriving DecidableEq

/-- Directionality in the first ChatModal (part_000 lines 197-199):
`!(chatParams.createdByAccount ? m.author === chatParams.creator
                               : m.author !== chatParams.creator)`. -/
def isOutgoingFirst (chat : Chat) (author : String) : Bool :=
  !(if chat.createdByAccount then author == chat.creator else author != chat.creator)

/-- Directionality in the second ChatModal (part_000 line 529):
`chatParams.creator === m.author`. -/
def isOutgoingSecond (chat : Chat) (author : String) : Bool :=
  chat.creator == author

/-! Ordering.

`[...messages].sort((a, b) => new Date(a.date).getTime() - new Date(b.date).getTime())`
(part_000 line 193) and
`[...chats].sort((a, b) => new Date(b.date).getTime() - new Date(a.date).getTime())`
(chats.tsx lines 105-107).  `Array.prototype.sort` is required to be stable
(ES2019), and with the consistent numeric comparator `a.date - b.date` the
result is the unique stable ascending reordering, which is what `mergeSort`
computes with the corresponding `≤`; for the chat list the comparator is
reversed, giving the stable descending reordering. -/

def sortMessagesUI (msgs : List Message) : List Message :=
  List.mergeSort msgs (fun a b => decide (a.date ≤ b.date))

def sortedChatsUI (chats : List Chat) : List Chat :=
  List.mergeSort chats (fun a b => decide (b.date ≤ a.date))

/-! Preview (chats.tsx). -/

/-- Model of `fetchChatPreview` (chats.tsx lines 66-78): when the fetched list is
nonempty, the preview cache entry is the normalized content of
`msgs[msgs.length - 1]`, the positionally last element. -/
def fetchChatPreviewText (msgs : List Message) : Option JStr :=
  match msgs.getLast? with
  | some m => some (normalizeContent m.content)
  | none => none

/-- Model of `truncateString` (chats.tsx lines 231-234):
`str.length <= maxLength ? str : str.slice(0, maxLength) + "..."`. -/
def truncateString (s : JStr) (maxLength : Nat) : JStr :=
  if s.length ≤ maxLength then s else s.take maxLength ++ utf16 "..."

/-- The preview line rendered by `ChatItem` (chats.tsx line 252):
`preview ? truncateString(preview, 100) : (chat.creator || "")`
(an absent or empty preview is falsy). -/
def chatItemPreview (preview : Option JStr) (creator : JStr) : JStr :=
  match preview with
  | some p => if p.isEmpty then creator else truncateString p 100
  | none => creator

/-! Model of send (ChatModal, part_000 lines 115-129).

The manager is not part of the two source files; its two calls inside `send`
can each succeed or throw, which we pass in as an explicit outcome:
`sendFails` models `sendMessageInChat` throwing, `fetchFails` models it
succeeding and the follow-up `getChatMessages` throwing, and `ok msgs` models
both succeeding with `msgs` (where `none` models a nullish list, replaced by
`[]` via `msgs ?? []`).  The `catch` block ignores the error and `finally`
clears `loading`. -/

inductive SendOutcome where
  | sendFails
  | fetchFails
  | ok (msgs : Option (List Message))
deriving DecidableEq

structure ChatState where
  chat : Option Chat
  messages : List Message
  text : JStr
  loading : Bool
deriving DecidableEq

structure SendResult where
  state : ChatState
  adapterSendCalled : Bool
  sentPayload : Option JStr
deriving DecidableEq

/-- Model of `send`: `if (!chat || !text.trim()) return;` then
`await manager.sendMessageInChat(chat, text.trim()); setText("");
const msgs = await manager.getChatMessages(chat); setMessages(msgs ?? []);`
inside try/catch/finally. -/
def send (st : ChatState) (out : SendOutcome) : SendResult :=
  if st.chat.isNone || (trimJS st.text).isEmpty then
    { state := st, adapterSendCalled := false, sentPayload := none }
  else
    match out with
    | .sendFails =>
        { state := { st with loading := false },
          adapterSendCalled := true, sentPayload := some (trimJS st.text) }
    | .fetchFails =>
        { state := { st with text := [], loading := false },
          adapterSendCalled := true, sentPayload := some (trimJS st.text) }
    | .ok msgs =>
        { state := { st with text := [], messages := msgs.getD [], loading := false },
          adapterSendCalled := true, sentPayload := some (trimJS st.text) }

/-! Claims. -/

/-- C1: the claim says a message is outgoing exactly when
(createdByLocalAccount and author = creator) or (not createdByLocalAccount and
author ≠ creator); concretely, with `createdByAccount = true` and creator
"Alice", an "Alice" message should be outgoing and a "Bob" message incoming.
The code computes the negation of that rule (and of its own comment): the
"Alice" message comes out incoming and the "Bob" message outgoing. -/
theorem c1_directionality_flipped :
    isOutgoingFirst { id := "1", subject := "s", recipient := "r",
                      creator := "Alice", date := 0, createdByAccount := true } "Alice" = false ∧
    isOutgoingFirst { id := "1", subject := "s", recipient := "r",
                      creator := "Alice", date := 0, createdByAccount := true } "Bob" = true := by
  decide

/-- C10 counterexample: with `createdByAccount = true`, creator "Alice" and
author "Alice", the first ChatModal marks the message incoming and the second
marks it outgoing, so the two implementations do not agree on every message. -/
theorem c10_cex :
    isOutgoingFirst { id := "1", subject := "s", recipient := "r",
                      creator := "Alice", date := 0, createdByAccount := true } "Alice" ≠
    isOutgoingSecond { id := "1", subject := "s", recipient := "r",
                       creator := "Alice", date := 0, createdByAccount := true } "Alice" := by
  decide

/-- C10 amended: the two ChatModal implementations agree on a conversation
exactly when `createdByAccount` is false; when it is true they disagree on
every message. -/
theorem c10_agreement (chat : Chat) (author : String) :
    (isOutgoingFirst chat author = isOutgoingSecond chat author) ↔
      chat.createdByAccount = false := by
  unfold isOutgoingFirst isOutgoingSecond
  by_cases h : author = chat.creator <;>
    cases hb : chat.createdByAccount <;>
      simp [h, hb, bne] <;>
        exact fun hh => h hh.symm

/-- If every unit of `s` is JavaScript whitespace, `trim` yields the empty
string. -/
theorem trimJS_eq_nil_of_allWs (s : JStr) (h : ∀ c ∈ s, jsWs c = true) :
    trimJS s = [] := by
  unfold trimJS
  have h1 : s.dropWhile jsWs = [] :=
    List.dropWhile_eq_nil_iff.mpr (fun a ha => h a ha)
  simp [h1]

/-- C8: with no conversation loaded, or with a text that is empty or
whitespace-only (so that `text.trim()` is falsy), `send` returns without
calling the adapter and leaves the state untouched. -/
theorem c8_send_noop (st : ChatState) (out : SendOutcome)
    (h : st.chat = none ∨ ∀ c ∈ st.text, jsWs c = true) :
    send st out = { state := st, adapterSendCalled := false, sentPayload := none } := by
  unfold send
  rcases h with h | h
  · simp [h]
  · simp [trimJS_eq_nil_of_allWs st.text h]

/-- C8 witness: blank text (three spaces) with a conversation loaded is a
no-op. -/
theorem c8_send_noop_w :
    send { chat := some { id := "1", subject := "s", recipient := "r",
                          creator := "Alice", date := 0, createdByAccount := true },
           messages := [], text := utf16 "   ", loading := false } .sendFails =
      { state := { chat := some { id := "1", subject := "s", recipient := "r",
                                  creator := "Alice", date := 0, createdByAccount := true },
                   messages := [], text := utf16 "   ", loading := false },
        adapterSendCalled := false, sentPayload := none } :=
  c8_send_noop _ _ (Or.inr (by decide))

/-- C9: once the guard passes (a conversation is loaded and the trimmed text is
nonempty): if the adapter send throws, the input text and the message list are
left unchanged (no local append); on success the text is cleared, and the
message list is replaced by the fresh fetch when that fetch succeeds and is
left unchanged when it throws. -/
theorem c9_send_failure (st : ChatState) (c : Chat)
    (hc : st.chat = some c) (ht : trimJS st.text ≠ []) :
    ((send st .sendFails).state.text = st.text ∧
     (send st .sendFails).state.messages = st.messages ∧
     (send st .sendFails).state.text = st.text) ∧
    (∀ msgs : Option (List Message),
      (send st (.ok msgs)).state.text = [] ∧
      (send st (.ok msgs)).state.messages = msgs.getD []) ∧
    ((send st .fetchFails).state.text = [] ∧
     (send st .fetchFails).state.messages = st.messages) := by
  have hguard : (st.chat.isNone || (trimJS st.text).isEmpty) = false := by
    simp [hc, List.isEmpty_iff, ht]
  unfold send
  simp [hguard]

/-- C9 witness: concrete state with text " hi " and one message; a failing
adapter send leaves the text in place. -/
theorem c9_send_failure_w :
    (send { chat := some { id := "1", subject := "s", recipient := "r",
                           creator := "Alice", date := 0, createdByAccount := true },
            messages := [], text := utf16 " hi ", loading := false } .sendFails).state.text =
      utf16 " hi " :=
  (c9_send_failure _ _ rfl (by decide)).1.1

/-- Stability of a stable sort, in filter form: the sublist of elements
satisfying a predicate on which the order is tied is returned in its original
relative order. -/
theorem mergeSort_filter_stable {α : Type} (le : α → α → Bool)
    (htrans : ∀ a b c, le a b = true → le b c = true → le a c = true)
    (htotal : ∀ a b, (le a b || le b a) = true)
    (l : List α) (p : α → Bool)
    (hp : ∀ a b, p a = true → p b = true → le a b = true) :
    (l.mergeSort le).filter p = l.filter p := by
  have hpair : (l.filter p).Pairwise (fun a b => le a b = true) :=
    List.pairwise_of_forall_mem_list (fun a ha b hb =>
      hp a b (List.of_mem_filter ha) (List.of_mem_filter hb))
  have hstab : (l.filter p).Sublist (l.mergeSort le) :=
    List.sublist_mergeSort htrans htotal hpair (List.filter_sublist l)
  have hff : (l.filter p).filter p = l.filter p :=
    List.filter_eq_self.mpr (fun a ha => List.of_mem_filter ha)
  have h1 : (l.filter p).Sublist ((l.mergeSort le).filter p) := by
    have := hstab.filter p
    rwa [hff] at this
  have hperm : ((l.mergeSort le).filter p).Perm (l.filter p) :=
    (List.mergeSort_perm l le).filter p
  exact (h1.eq_of_length hperm.length_eq.symm).symm

/-- C6: messages are sorted ascending by timestamp for thread display,
conversations descending for the list view; both are permutations of the
input and both are stable (for each timestamp, the elements carrying it keep
their relative input order). -/
theorem c6_ordering (msgs : List Message) (chats : List Chat) :
    (sortMessagesUI msgs).Pairwise (fun a b => a.date ≤ b.date) ∧
    (sortMessagesUI msgs).Perm msgs ∧
    (∀ d : Int, (sortMessagesUI msgs).filter (fun m => m.date == d) =
      msgs.filter (fun m => m.date == d)) ∧
    (sortedChatsUI chats).Pairwise (fun a b => b.date ≤ a.date) ∧
    (sortedChatsUI chats).Perm chats ∧
    (∀ d : Int, (sortedChatsUI chats).filter (fun c => c.date == d) =
      chats.filter (fun c => c.date == d)) := by
  have htransM : ∀ a b c : Message, decide (a.date ≤ b.date) = true →
      decide (b.date ≤ c.date) = true → decide (a.date ≤ c.date) = true := by
    intro a b c h1 h2
    simp only [decide_eq_true_eq] at h1 h2 ⊢
    omega
  have htotalM : ∀ a b : Message,
      (decide (a.date ≤ b.date) || decide (b.date ≤ a.date)) = true := by
    intro a b
    simpa using Int.le_total a.date b.date
  have htransC : ∀ a b c : Chat, decide (b.date ≤ a.date) = true →
      decide (c.date ≤ b.date) = true → decide (c.date ≤ a.date) = true := by
    intro a b c h1 h2
    simp only [decide_eq_true_eq] at h1 h2 ⊢
    omega
  have htotalC : ∀ a b : Chat,
      (decide (b.date ≤ a.date) || decide (a.date ≤ b.date)) = true := by
    intro a b
    simpa using Int.le_total b.date a.date
  refine ⟨?_, List.mergeSort_perm msgs _, ?_, ?_, List.mergeSort_perm chats _, ?_⟩
  · exact (List.sorted_mergeSort htransM htotalM msgs).imp
      (fun h => by simpa using h)
  · intro d
    refine mergeSort_filter_stable _ htransM htotalM msgs _ ?_
    intro a b ha hb
    simp only [beq_iff_eq] at ha hb
    simp [ha, hb]
  · exact (List.sorted_mergeSort htransC htotalC chats).imp
      (fun h => by simpa using h)
  · intro d
    refine mergeSort_filter_stable _ htransC htotalC chats _ ?_
    intro a b ha hb
    simp only [beq_iff_eq] at ha hb
    simp [ha, hb]

/-- In a list sorted ascending by timestamp, the positionally last element has
a maximal timestamp. -/
theorem sorted_getLast_max (msgs : List Message) (m : Message) :
    msgs.getLast? = some m →
    msgs.Pairwise (fun a b => a.date ≤ b.date) →
    ∀ x ∈ msgs, x.date ≤ m.date := by
  induction msgs with
  | nil => intro h; cases h
  | cons a t ih =>
    intro h hs x hx
    cases t with
    | nil =>
      have hma : a = m := by simpa using h
      have hxa : x = a := by simpa using hx
      simp [hxa, hma]
    | cons b t2 =>
      have h2 : (b :: t2).getLast? = some m := by
        simpa [List.getLast?_cons_cons] using h
      have hm : m ∈ b :: t2 := List.mem_of_mem_getLast? h2
      rcases List.mem_cons.mp hx with hxa | hxt
      · subst hxa
        exact (List.pairwise_cons.mp hs).1 m hm
      · exact ih h2 (List.pairwise_cons.mp hs).2 x hxt

/-- C5 counterexample: the fetched list `[{content B, date 2}, {content A,
date 1}]` has its latest-timestamp message first; the preview is built from
the positionally last element (content A, the older message), not from the
chronologically last message (content B). -/
theorem c5_cex :
    fetchChatPreviewText
        [{ id := "m1", author := "x", content := utf16 "B", date := 2 },
         { id := "m2", author := "y", content := utf16 "A", date := 1 }] ≠
      some (normalizeContent (utf16 "B")) := by
  decide

/-- C5 amended: the preview is the normalized content of the positionally
last message of the fetched list (which is the chronologically last one
whenever the adapter returns the list sorted ascending by timestamp), and the
rendered preview line shows it unchanged at length at most 100 and otherwise
as exactly the first 100 units followed by the "..." marker. -/
theorem c5_preview (msgs : List Message) (m : Message)
    (h : msgs.getLast? = some m) :
    fetchChatPreviewText msgs = some (normalizeContent m.content) ∧
    (msgs.Pairwise (fun a b => a.date ≤ b.date) → ∀ x ∈ msgs, x.date ≤ m.date) ∧
    (∀ p : JStr, p.length ≤ 100 → truncateString p 100 = p) ∧
    (∀ p : JStr, 100 < p.length →
      truncateString p 100 = p.take 100 ++ utf16 "..." ∧ (p.take 100).length = 100) ∧
    (∀ (p : JStr) (cr : JStr), p ≠ [] → chatItemPreview (some p) cr = truncateString p 100) := by
  refine ⟨?_, fun hs => sorted_getLast_max msgs m h hs, ?_, ?_, ?_⟩
  · unfold fetchChatPreviewText
    rw [h]
  · intro p hp
    unfold truncateString
    rw [if_pos hp]
  · intro p hp
    unfold truncateString
    rw [if_neg (by omega)]
    refine ⟨rfl, ?_⟩
    simp only [List.length_take]
    omega
  · intro p cr hp
    unfold chatItemPreview
    simp [List.isEmpty_iff, hp]

/-- C5 witness: a one-element list is previewed by its (only, hence last)
message. -/
theorem c5_preview_w :
    fetchChatPreviewText [{ id := "m1", author := "x",
                            content := utf16 "hello", date := 5 }] =
      some (normalizeContent (utf16 "hello")) :=
  (c5_preview [{ id := "m1", author := "x", content := utf16 "hello", date := 5 }]
    { id := "m1", author := "x", content := utf16 "hello", date := 5 } rfl).1

/-- In tag mode with no `>` remaining, the scanner reaches the end of input
and flushes the pending fragment verbatim. -/
theorem stripGo_true_no_gt (rest : JStr) : ∀ pend : JStr, 62 ∉ rest →
    stripGo rest pend true = pend.reverse ++ rest := by
  induction rest with
  | nil => intro pend _; simp [stripGo]
  | cons c t ih =>
    intro pend h
    have hc : c ≠ 62 := by rintro rfl; exact h (List.mem_cons_self _ _)
    simp only [stripGo]
    rw [if_neg hc, ih (c :: pend) (fun hm => h (List.mem_cons_of_mem _ hm))]
    simp

/-- If the input contains no `>`, tag stripping removes nothing. -/
theorem stripGo_false_no_gt (s : JStr) (h : 62 ∉ s) : stripGo s [] false = s := by
  induction s with
  | nil => simp [stripGo]
  | cons c t ih =>
    by_cases hc : c = 60
    · subst hc
      simp only [stripGo, if_pos rfl]
      rw [stripGo_true_no_gt t [60] (fun hm => h (List.mem_cons_of_mem _ hm))]
      simp
    · simp only [stripGo]
      rw [if_neg hc, ih (fun hm => h (List.mem_cons_of_mem _ hm))]

/-- In tag mode, the first `>` closes the tag: everything pending is dropped
and scanning resumes after it. -/
theorem stripGo_true_close (p : JStr) : ∀ (rest pend : JStr), 62 ∉ p →
    stripGo (p ++ 62 :: rest) pend true = stripGo rest [] false := by
  induction p with
  | nil => intro rest pend _; simp [stripGo]
  | cons c t ih =>
    intro rest pend h
    have hc : c ≠ 62 := by rintro rfl; exact h (List.mem_cons_self _ _)
    simp only [List.cons_append, stripGo]
    rw [if_neg hc]
    exact ih rest (c :: pend) (fun hm => h (List.mem_cons_of_mem _ hm))

/-- A prefix without `<` is copied unchanged by the scanner. -/
theorem stripGo_false_clean (pre : JStr) : ∀ s : JStr, 60 ∉ pre →
    stripGo (pre ++ s) [] false = pre ++ stripGo s [] false := by
  induction pre with
  | nil => intro s _; simp
  | cons c t ih =>
    intro s h
    have hc : c ≠ 60 := by rintro rfl; exact h (List.mem_cons_self _ _)
    simp only [List.cons_append, stripGo]
    rw [if_neg hc]
    have := ih s (fun hm => h (List.mem_cons_of_mem _ hm))
    simp only [List.append_eq] at this ⊢
    rw [this]

/-- C3 counterexample: on "abc<def", whose `<` has no subsequent `>`,
normalization leaves the string unchanged; the claim predicts the remainder
from `<` onward is consumed, which would give "abc". -/
theorem c3_cex :
    normalizeContent (utf16 "abc<def") = utf16 "abc<def" ∧
    normalizeContent (utf16 "abc<def") ≠ utf16 "abc" := by
  decide

/-- C3 amended: a string with no `>` at all is left unchanged by tag
stripping (in particular a `<` with no subsequent `>` consumes nothing); a
`<` never followed by `>` is kept verbatim together with everything after it;
and a well-delimited fragment `< p >` (with `p` free of `>`, so removal is
non-greedy) is removed exactly up to the first `>`. -/
theorem c3_strip (s pre p rest : JStr)
    (hs : 62 ∉ s) (hpre : 60 ∉ pre) (hp : 62 ∉ p) :
    stripHtmlTags s = s ∧
    stripHtmlTags (pre ++ 60 :: p) = pre ++ 60 :: p ∧
    stripHtmlTags (pre ++ 60 :: (p ++ 62 :: rest)) = pre ++ stripHtmlTags rest := by
  refine ⟨stripGo_false_no_gt s hs, ?_, ?_⟩
  · unfold stripHtmlTags
    rw [stripGo_false_clean pre (60 :: p) hpre]
    simp only [stripGo, if_pos rfl]
    rw [stripGo_true_no_gt p [60] hp]
    simp
  · unfold stripHtmlTags
    rw [stripGo_false_clean pre _ hpre]
    simp only [stripGo, eq_self_iff_true, if_true]
    rw [stripGo_true_close p rest [60] hp]

/-- C3 witness: "a<b" is kept whole; in "x<i>y" the fragment "<i>" is removed
and the rest survives. -/
theorem c3_strip_w :
    stripHtmlTags (utf16 "a<b") = utf16 "a<b" ∧
    stripHtmlTags (utf16 "x" ++ 60 :: (utf16 "i" ++ 62 :: utf16 "y")) =
      utf16 "x" ++ stripHtmlTags (utf16 "y") :=
  ⟨(c3_strip (utf16 "a<b") (utf16 "x") (utf16 "i") (utf16 "y")
      (by decide) (by decide) (by decide)).1,
   (c3_strip (utf16 "a<b") (utf16 "x") (utf16 "i") (utf16 "y")
      (by decide) (by decide) (by decide)).2.2⟩

/-! Behaviour of the replacement scanners on strings without `&`

Every pattern of `decodeHtmlEntities` begins with the unit 38 (`&`), so on a
string not containing it every pass is the identity (after finishing a pending
skip, which `drop` expresses). -/

theorem repLitGo_cons (pat rep : JStr) (c : Nat) (t : JStr)
    (h : pat.isPrefixOf (c :: t) = false) :
    repLitGo pat rep 0 (c :: t) = c :: repLitGo pat rep 0 t := by
  simp [repLitGo, h]

theorem isPrefixOf_cons_of_ne (hd : Nat) (pt : JStr) (c : Nat) (t : JStr)
    (h : hd ≠ c) : (hd :: pt).isPrefixOf (c :: t) = false := by
  have hb : (hd == c) = false := beq_eq_false_iff_ne.mpr h
  simp [List.isPrefixOf, hb]

theorem repLitGo_drop (pat rep : JStr) (hd : Nat) (hhd : pat.head? = some hd) :
    ∀ (k : Nat) (s : JStr), hd ∉ s → repLitGo pat rep k s = s.drop k := by
  intro k s
  induction s generalizing k with
  | nil => intro _; cases k <;> simp [repLitGo]
  | cons c t ih =>
    intro h
    have ht : hd ∉ t := fun hm => h (List.mem_cons_of_mem _ hm)
    cases k with
    | zero =>
      have hc : hd ≠ c := by
        intro hh
        exact h (hh ▸ List.mem_cons_self c t)
      have hpre : pat.isPrefixOf (c :: t) = false := by
        cases pat with
        | nil => cases hhd
        | cons p0 pt =>
          have hp0 : p0 = hd := by simpa using hhd
          subst hp0
          exact isPrefixOf_cons_of_ne _ pt c t hc
      rw [repLitGo_cons pat rep c t hpre, ih 0 ht]
      simp
    | succ k =>
      simp only [repLitGo]
      rw [ih k ht]
      rfl

theorem repNbspGo_drop : ∀ (k : Nat) (s : JStr), 38 ∉ s → repNbspGo k s = s.drop k := by
  intro k s
  induction s generalizing k with
  | nil => intro _; cases k <;> simp [repNbspGo]
  | cons c t ih =>
    intro h
    have ht : 38 ∉ t := fun hm => h (List.mem_cons_of_mem _ hm)
    cases k with
    | zero =>
      have hc : (38 : Nat) ≠ c := by
        intro hh
        exact h (hh ▸ List.mem_cons_self c t)
      have h1 : pNbsp.isPrefixOf (c :: t) = false := by
        rw [show pNbsp = 38 :: utf16 "nbsp;" from by decide]
        exact isPrefixOf_cons_of_ne _ _ c t hc
      have h2 : p160.isPrefixOf (c :: t) = false := by
        rw [show p160 = 38 :: utf16 "#160;" from by decide]
        exact isPrefixOf_cons_of_ne _ _ c t hc
      simp only [repNbspGo, h1, h2, Bool.false_eq_true, if_false]
      rw [ih 0 ht]
      simp
    | succ k =>
      simp only [repNbspGo]
      rw [ih k ht]
      rfl

theorem repDecGo_drop : ∀ (k : Nat) (s : JStr), 38 ∉ s → repDecGo k s = s.drop k := by
  intro k s
  induction s generalizing k with
  | nil => intro _; cases k <;> simp [repDecGo]
  | cons c t ih =>
    intro h
    have ht : 38 ∉ t := fun hm => h (List.mem_cons_of_mem _ hm)
    cases k with
    | zero =>
      have hc : c ≠ 38 := by
        intro hh
        exact h (hh ▸ List.mem_cons_self c t)
      rw [repDecGo.eq_5 c t (fun _ h38 _ => absurd h38 hc), ih 0 ht]
      simp
    | succ k =>
      simp only [repDecGo]
      rw [ih k ht]
      rfl

theorem repHexGo_drop : ∀ (k : Nat) (s : JStr), 38 ∉ s → repHexGo k s = s.drop k := by
  intro k s
  induction s generalizing k with
  | nil => intro _; cases k <;> simp [repHexGo]
  | cons c t ih =>
    intro h
    have ht : 38 ∉ t := fun hm => h (List.mem_cons_of_mem _ hm)
    cases k with
    | zero =>
      have hc : c ≠ 38 := by
        intro hh
        exact h (hh ▸ List.mem_cons_self c t)
      rw [repHexGo.eq_5 c t (fun _ h38 _ => absurd h38 hc), ih 0 ht]
      simp
    | succ k =>
      simp only [repHexGo]
      rw [ih k ht]
      rfl

/-- If the input contains no `<`, tag stripping is the identity. -/
theorem stripGo_false_no_lt (s : JStr) (h : 60 ∉ s) : stripGo s [] false = s := by
  induction s with
  | nil => simp [stripGo]
  | cons c t ih =>
    have hc : c ≠ 60 := by rintro rfl; exact h (List.mem_cons_self _ _)
    simp only [stripGo]
    rw [if_neg hc, ih (fun hm => h (List.mem_cons_of_mem _ hm))]

/-- On a string with no whitespace at all, whitespace collapsing is the
identity. -/
theorem collGo_no_ws (s : JStr) (h : ∀ c ∈ s, jsWs c = false) :
    collGo false s = s := by
  induction s with
  | nil => rfl
  | cons c t ih =>
    have hc : jsWs c = false := h c (List.mem_cons_self _ _)
    simp only [collGo, hc, Bool.false_eq_true, if_false]
    rw [ih (fun x hx => h x (List.mem_cons_of_mem _ hx))]

/-- On a string with no whitespace at all, trim is the identity. -/
theorem trimJS_no_ws (s : JStr) (h : ∀ c ∈ s, jsWs c = false) : trimJS s = s := by
  have e1 : ∀ u : JStr, (∀ c ∈ u, jsWs c = false) → u.dropWhile jsWs = u := by
    intro u hu
    cases u with
    | nil => rfl
    | cons c t => simp [List.dropWhile_cons, hu c (List.mem_cons_self _ _)]
  unfold trimJS
  rw [e1 s h, e1 s.reverse (fun c hc => h c (List.mem_reverse.mp hc)),
      List.reverse_reverse]

/-- Evaluation of `takeWhile` over a block that satisfies the predicate followed by an
element that does not. -/
theorem takeWhile_all_append (p : Nat → Bool) (ds : JStr) (x : Nat) (w : JStr)
    (hds : ∀ c ∈ ds, p c = true) (hx : p x = false) :
    (ds ++ x :: w).takeWhile p = ds := by
  induction ds with
  | nil => simp [List.takeWhile_cons, hx]
  | cons c t ih =>
    simp only [List.cons_append, List.takeWhile_cons, hds c (List.mem_cons_self _ _),
      if_true]
    rw [ih (fun a ha => hds a (List.mem_cons_of_mem _ ha))]

/-- An `&#` not followed by a digit is passed over. -/
theorem repDecGo_nodig (rest : JStr) (h : rest.takeWhile isDig = []) :
    repDecGo 0 (38 :: 35 :: rest) = 38 :: repDecGo 0 (35 :: rest) := by
  simp [repDecGo, h]

/-- An `&#` followed by digits and `;` is replaced by the truncated code
unit. -/
theorem repDecGo_match (rest ds tl : JStr)
    (hds : rest.takeWhile isDig = ds) (hne : ds.isEmpty = false)
    (hdrop : rest.drop ds.length = 59 :: tl) :
    repDecGo 0 (38 :: 35 :: rest) =
      fromCharCode (decVal ds) ++ repDecGo (ds.length + 1) rest := by
  simp only [repDecGo, hds, hne, Bool.false_eq_true, if_false, hdrop]

/-- An `&#x` not followed by a hex digit is passed over. -/
theorem repHexGo_nohex (rest : JStr) (h : rest.takeWhile isHexDig = []) :
    repHexGo 0 (38 :: 35 :: 120 :: rest) = 38 :: repHexGo 0 (35 :: 120 :: rest) := by
  simp [repHexGo, h]

/-- An `&#x` followed by hex digits and `;` is replaced by the truncated code
unit. -/
theorem repHexGo_match (rest hs tl : JStr)
    (hhs : rest.takeWhile isHexDig = hs) (hne : hs.isEmpty = false)
    (hdrop : rest.drop hs.length = 59 :: tl) :
    repHexGo 0 (38 :: 35 :: 120 :: rest) =
      fromCharCode (hexVal hs) ++ repHexGo (hs.length + 1) rest := by
  simp only [repHexGo, hhs, hne, Bool.false_eq_true, if_false, hdrop]

/-- The hex pass leaves any single code unit alone (the pattern needs at least
four units). -/
theorem repHexGo_single (v : Nat) : repHexGo 0 [v] = [v] := by
  rw [repHexGo.eq_5 v [] (fun _ _ hr => List.noConfusion hr)]
  rfl

/-- Prefix test fails on a mismatch at the second position. -/
theorem isPrefixOf_cons2_of_ne {a b c d : Nat} (pt t : JStr) (h : b ≠ d) :
    (a :: b :: pt).isPrefixOf (c :: d :: t) = false := by
  have hb : (b == d) = false := beq_eq_false_iff_ne.mpr h
  simp [List.isPrefixOf, hb]

/-- Prefix test fails on a mismatch at the third position. -/
theorem isPrefixOf_cons3_of_ne {a b c d e f : Nat} (pt t : JStr) (h : c ≠ f) :
    (a :: b :: c :: pt).isPrefixOf (d :: e :: f :: t) = false := by
  have hc : (c == f) = false := beq_eq_false_iff_ne.mpr h
  simp [List.isPrefixOf, hc]

/-- Step of the nbsp pass when neither alternative matches at the head. -/
theorem repNbspGo_cons (c : Nat) (t : JStr)
    (h1 : pNbsp.isPrefixOf (c :: t) = false)
    (h2 : p160.isPrefixOf (c :: t) = false) :
    repNbspGo 0 (c :: t) = c :: repNbspGo 0 t := by
  simp [repNbspGo, h1, h2]

/-- C2 counterexample: `normalize("&#xZZZZ;")` leaves the raw escape text in
the output (it matches neither numeric-reference regex), instead of decoding
it to the empty string as claimed. -/
theorem c2_cex :
    normalizeContent (utf16 "&#xZZZZ;") = utf16 "&#xZZZZ;" ∧
    normalizeContent (utf16 "&#xZZZZ;") ≠ utf16 "" := by
  decide

/-- C2 amended: a numeric-looking reference `&#x...;` whose payload contains
no hexadecimal digit (and nothing that any other pass or the whitespace
handling could touch) matches neither decoding pattern and is left verbatim in
the output; `normalizeContent` is a total function, so nothing is thrown.
The `Number.isNaN` fallback producing an empty string is unreachable, because
both numeric regexes only capture digit runs that always parse. -/
theorem c2_unparseable (zs : JStr)
    (hz : ∀ c ∈ zs, isHexDig c = false ∧ c ≠ 38 ∧ c ≠ 60 ∧ jsWs c = false) :
    normalizeContent (38 :: 35 :: 120 :: (zs ++ [59])) =
      38 :: 35 :: 120 :: (zs ++ [59]) := by
  have hz38 : ∀ c ∈ zs, c ≠ 38 := fun c hc => (hz c hc).2.1
  have hz60 : ∀ c ∈ zs, c ≠ 60 := fun c hc => (hz c hc).2.2.1
  have hzws : ∀ c ∈ zs, jsWs c = false := fun c hc => (hz c hc).2.2.2
  have hzhex : ∀ c ∈ zs, isHexDig c = false := fun c hc => (hz c hc).1
  have noAmpT : (38 : Nat) ∉ (35 :: 120 :: (zs ++ [59]) : JStr) := by
    intro hm
    simp only [List.mem_cons, List.mem_append, List.not_mem_nil, or_false] at hm
    rcases hm with h | h | h | h
    · exact absurd h (by decide)
    · exact absurd h (by decide)
    · exact hz38 38 h rfl
    · exact absurd h (by decide)
  have no60S : (60 : Nat) ∉ (38 :: 35 :: 120 :: (zs ++ [59]) : JStr) := by
    intro hm
    simp only [List.mem_cons, List.mem_append, List.not_mem_nil, or_false] at hm
    rcases hm with h | h | h | h | h
    · exact absurd h (by decide)
    · exact absurd h (by decide)
    · exact absurd h (by decide)
    · exact hz60 60 h rfl
    · exact absurd h (by decide)
  have noWsS : ∀ c ∈ (38 :: 35 :: 120 :: (zs ++ [59]) : JStr), jsWs c = false := by
    intro c hc
    simp only [List.mem_cons, List.mem_append, List.not_mem_nil, or_false] at hc
    rcases hc with h | h | h | h | h
    · rw [h]; decide
    · rw [h]; decide
    · rw [h]; decide
    · exact hzws c h
    · rw [h]; decide
  have hstrip : stripHtmlTags (38 :: 35 :: 120 :: (zs ++ [59])) =
      38 :: 35 :: 120 :: (zs ++ [59]) := by
    unfold stripHtmlTags
    exact stripGo_false_no_lt _ no60S
  have eNbsp : repNbspGo 0 (38 :: 35 :: 120 :: (zs ++ [59])) =
      38 :: 35 :: 120 :: (zs ++ [59]) := by
    have h1 : pNbsp.isPrefixOf (38 :: 35 :: 120 :: (zs ++ [59])) = false := by
      rw [show pNbsp = 38 :: 110 :: utf16 "bsp;" from by decide]
      exact isPrefixOf_cons2_of_ne _ _ (by decide)
    have h2 : p160.isPrefixOf (38 :: 35 :: 120 :: (zs ++ [59])) = false := by
      rw [show p160 = 38 :: 35 :: 49 :: utf16 "60;" from by decide]
      exact isPrefixOf_cons3_of_ne _ _ (by decide)
    rw [repNbspGo_cons _ _ h1 h2, repNbspGo_drop 0 _ noAmpT, List.drop_zero]
  have eAmp : repLitGo pAmp [38] 0 (38 :: 35 :: 120 :: (zs ++ [59])) =
      38 :: 35 :: 120 :: (zs ++ [59]) := by
    have h1 : pAmp.isPrefixOf (38 :: 35 :: 120 :: (zs ++ [59])) = false := by
      rw [show pAmp = 38 :: 97 :: utf16 "mp;" from by decide]
      exact isPrefixOf_cons2_of_ne _ _ (by decide)
    rw [repLitGo_cons _ _ _ _ h1, repLitGo_drop pAmp [38] 38 (by decide) 0 _ noAmpT,
        List.drop_zero]
  have eLt : repLitGo pLt [60] 0 (38 :: 35 :: 120 :: (zs ++ [59])) =
      38 :: 35 :: 120 :: (zs ++ [59]) := by
    have h1 : pLt.isPrefixOf (38 :: 35 :: 120 :: (zs ++ [59])) = false := by
      rw [show pLt = 38 :: 108 :: utf16 "t;" from by decide]
      exact isPrefixOf_cons2_of_ne _ _ (by decide)
    rw [repLitGo_cons _ _ _ _ h1, repLitGo_drop pLt [60] 38 (by decide) 0 _ noAmpT,
        List.drop_zero]
  have eGt : repLitGo pGt [62] 0 (38 :: 35 :: 120 :: (zs ++ [59])) =
      38 :: 35 :: 120 :: (zs ++ [59]) := by
    have h1 : pGt.isPrefixOf (38 :: 35 :: 120 :: (zs ++ [59])) = false := by
      rw [show pGt = 38 :: 103 :: utf16 "t;" from by decide]
      exact isPrefixOf_cons2_of_ne _ _ (by decide)
    rw [repLitGo_cons _ _ _ _ h1, repLitGo_drop pGt [62] 38 (by decide) 0 _ noAmpT,
        List.drop_zero]
  have eQuot : repLitGo pQuot [34] 0 (38 :: 35 :: 120 :: (zs ++ [59])) =
      38 :: 35 :: 120 :: (zs ++ [59]) := by
    have h1 : pQuot.isPrefixOf (38 :: 35 :: 120 :: (zs ++ [59])) = false := by
      rw [show pQuot = 38 :: 113 :: utf16 "uot;" from by decide]
      exact isPrefixOf_cons2_of_ne _ _ (by decide)
    rw [repLitGo_cons _ _ _ _ h1, repLitGo_drop pQuot [34] 38 (by decide) 0 _ noAmpT,
        List.drop_zero]
  have eApos : repLitGo pApos [39] 0 (38 :: 35 :: 120 :: (zs ++ [59])) =
      38 :: 35 :: 120 :: (zs ++ [59]) := by
    have h1 : pApos.isPrefixOf (38 :: 35 :: 120 :: (zs ++ [59])) = false := by
      rw [show pApos = 38 :: 35 :: 51 :: [57, 59] from by decide]
      exact isPrefixOf_cons3_of_ne _ _ (by decide)
    rw [repLitGo_cons _ _ _ _ h1, repLitGo_drop pApos [39] 38 (by decide) 0 _ noAmpT,
        List.drop_zero]
  have eDec : repDecGo 0 (38 :: 35 :: 120 :: (zs ++ [59])) =
      38 :: 35 :: 120 :: (zs ++ [59]) := by
    have htw : (120 :: (zs ++ [59]) : JStr).takeWhile isDig = [] := by
      simp [List.takeWhile_cons, show isDig 120 = false from by decide]
    rw [repDecGo_nodig _ htw, repDecGo_drop 0 _ noAmpT, List.drop_zero]
  have eHex : repHexGo 0 (38 :: 35 :: 120 :: (zs ++ [59])) =
      38 :: 35 :: 120 :: (zs ++ [59]) := by
    have htw : (zs ++ [59] : JStr).takeWhile isHexDig = [] := by
      cases zs with
      | nil => simp [List.takeWhile_cons, show isHexDig 59 = false from by decide]
      | cons z zt =>
        simp [List.takeWhile_cons, hzhex z (List.mem_cons_self _ _)]
    rw [repHexGo_nohex _ htw, repHexGo_drop 0 _ noAmpT, List.drop_zero]
  unfold normalizeContent decodeHtmlEntities collapseWs
  rw [hstrip, eNbsp, eAmp, eLt, eGt, eQuot, eApos, eDec, eHex,
      collGo_no_ws _ noWsS, trimJS_no_ws _ noWsS]

/-- C2 witness: the spec's own example "&#xZZZZ;" survives unchanged. -/
theorem c2_unparseable_w :
    normalizeContent (utf16 "&#xZZZZ;") = utf16 "&#xZZZZ;" := by
  have h : utf16 "&#xZZZZ;" = 38 :: 35 :: 120 :: (utf16 "ZZZZ" ++ [59]) := by decide
  rw [h]
  exact c2_unparseable (utf16 "ZZZZ") (by decide)

/-- On a decimal-reference string `&#ds;` whose digit run is not `160`, the
`&#160;` alternative of the nbsp pass does not match. -/
theorem p160_noMatch (ds : JStr) (hdig : ∀ c ∈ ds, 48 ≤ c ∧ c ≤ 57)
    (hne : ds ≠ [49, 54, 48]) :
    p160.isPrefixOf (38 :: 35 :: (ds ++ [59])) = false := by
  rw [show p160 = [38, 35, 49, 54, 48, 59] from by decide]
  cases ds with
  | nil => decide
  | cons a t1 =>
    cases t1 with
    | nil => simp [List.isPrefixOf]
    | cons b t2 =>
      cases t2 with
      | nil => simp [List.isPrefixOf]
      | cons c3 t3 =>
        cases t3 with
        | nil =>
          by_cases ha : a = 49
          · by_cases hb : b = 54
            · have hc3 : c3 ≠ 48 := fun hh => hne (by rw [ha, hb, hh])
              simp [List.isPrefixOf, ha, hb,
                beq_eq_false_iff_ne.mpr (fun hh : (48 : Nat) = c3 => hc3 hh.symm)]
            · simp [List.isPrefixOf,
                beq_eq_false_iff_ne.mpr (fun hh : (54 : Nat) = b => hb hh.symm)]
          · simp [List.isPrefixOf,
              beq_eq_false_iff_ne.mpr (fun hh : (49 : Nat) = a => ha hh.symm)]
        | cons d t4 =>
          have hd := hdig d (by simp)
          have hd59 : (59 : Nat) ≠ d := by omega
          simp [List.isPrefixOf, beq_eq_false_iff_ne.mpr hd59]

/-- On a decimal-reference string `&#ds;` whose digit run is not `39`, the
apostrophe pass does not match. -/
theorem pApos_noMatch (ds : JStr) (hdig : ∀ c ∈ ds, 48 ≤ c ∧ c ≤ 57)
    (hne : ds ≠ [51, 57]) :
    pApos.isPrefixOf (38 :: 35 :: (ds ++ [59])) = false := by
  rw [show pApos = [38, 35, 51, 57, 59] from rfl]
  cases ds with
  | nil => decide
  | cons a t1 =>
    cases t1 with
    | nil => simp [List.isPrefixOf]
    | cons b t2 =>
      cases t2 with
      | nil =>
        by_cases ha : a = 51
        · have hb : b ≠ 57 := fun hh => hne (by rw [ha, hh])
          simp [List.isPrefixOf, ha,
            beq_eq_false_iff_ne.mpr (fun hh : (57 : Nat) = b => hb hh.symm)]
        · simp [List.isPrefixOf,
            beq_eq_false_iff_ne.mpr (fun hh : (51 : Nat) = a => ha hh.symm)]
      | cons c3 t3 =>
        have hc := hdig c3 (by simp)
        have hc59 : (59 : Nat) ≠ c3 := by omega
        simp [List.isPrefixOf, beq_eq_false_iff_ne.mpr hc59]

/-- A well-formed decimal reference `&#ds;` (digits `ds`, not the specially
handled `160` path because its result would be whitespace, and with a
non-whitespace result unit) normalizes to the single code unit
`Number(ds) mod 2^16`, the `String.fromCharCode` truncation.  The value is
required to be below 2^53, the range on which `Number` is exact. -/
theorem c7dec (ds : JStr) (hdsne : ds ≠ [])
    (hds : ∀ c ∈ ds, isDig c = true)
    (hbound : decVal ds < 2 ^ 53)
    (hws : jsWs (decVal ds % 65536) = false) :
    normalizeContent (38 :: 35 :: (ds ++ [59])) = [decVal ds % 65536] := by
  have hdig : ∀ c ∈ ds, 48 ≤ c ∧ c ≤ 57 := by
    intro c hc
    have := hds c hc
    simpa [isDig] using this
  by_cases h160 : ds = [49, 54, 48]
  · rw [h160] at hws
    exact absurd hws (by decide)
  by_cases h39 : ds = [51, 57]
  · rw [h39]
    decide
  have noAmpT : (38 : Nat) ∉ (35 :: (ds ++ [59]) : JStr) := by
    intro hm
    simp only [List.mem_cons, List.mem_append, List.not_mem_nil, or_false] at hm
    rcases hm with h | h | h
    · exact absurd h (by decide)
    · have := hdig 38 h; omega
    · exact absurd h (by decide)
  have no60S : (60 : Nat) ∉ (38 :: 35 :: (ds ++ [59]) : JStr) := by
    intro hm
    simp only [List.mem_cons, List.mem_append, List.not_mem_nil, or_false] at hm
    rcases hm with h | h | h | h
    · exact absurd h (by decide)
    · exact absurd h (by decide)
    · have := hdig 60 h; omega
    · exact absurd h (by decide)
  have hstrip : stripHtmlTags (38 :: 35 :: (ds ++ [59])) =
      38 :: 35 :: (ds ++ [59]) := by
    unfold stripHtmlTags
    exact stripGo_false_no_lt _ no60S
  have eNbsp : repNbspGo 0 (38 :: 35 :: (ds ++ [59])) =
      38 :: 35 :: (ds ++ [59]) := by
    have h1 : pNbsp.isPrefixOf (38 :: 35 :: (ds ++ [59])) = false := by
      rw [show pNbsp = 38 :: 110 :: utf16 "bsp;" from by decide]
      exact isPrefixOf_cons2_of_ne _ _ (by decide)
    rw [repNbspGo_cons _ _ h1 (p160_noMatch ds hdig h160),
        repNbspGo_drop 0 _ noAmpT, List.drop_zero]
  have eAmp : repLitGo pAmp [38] 0 (38 :: 35 :: (ds ++ [59])) =
      38 :: 35 :: (ds ++ [59]) := by
    have h1 : pAmp.isPrefixOf (38 :: 35 :: (ds ++ [59])) = false := by
      rw [show pAmp = 38 :: 97 :: utf16 "mp;" from by decide]
      exact isPrefixOf_cons2_of_ne _ _ (by decide)
    rw [repLitGo_cons _ _ _ _ h1, repLitGo_drop pAmp [38] 38 (by decide) 0 _ noAmpT,
        List.drop_zero]
  have eLt : repLitGo pLt [60] 0 (38 :: 35 :: (ds ++ [59])) =
      38 :: 35 :: (ds ++ [59]) := by
    have h1 : pLt.isPrefixOf (38 :: 35 :: (ds ++ [59])) = false := by
      rw [show pLt = 38 :: 108 :: utf16 "t;" from by decide]
      exact isPrefixOf_cons2_of_ne _ _ (by decide)
    rw [repLitGo_cons _ _ _ _ h1, repLitGo_drop pLt [60] 38 (by decide) 0 _ noAmpT,
        List.drop_zero]
  have eGt : repLitGo pGt [62] 0 (38 :: 35 :: (ds ++ [59])) =
      38 :: 35 :: (ds ++ [59]) := by
    have h1 : pGt.isPrefixOf (38 :: 35 :: (ds ++ [59])) = false := by
      rw [show pGt = 38 :: 103 :: utf16 "t;" from by decide]
      exact isPrefixOf_cons2_of_ne _ _ (by decide)
    rw [repLitGo_cons _ _ _ _ h1, repLitGo_drop pGt [62] 38 (by decide) 0 _ noAmpT,
        List.drop_zero]
  have eQuot : repLitGo pQuot [34] 0 (38 :: 35 :: (ds ++ [59])) =
      38 :: 35 :: (ds ++ [59]) := by
    have h1 : pQuot.isPrefixOf (38 :: 35 :: (ds ++ [59])) = false := by
      rw [show pQuot = 38 :: 113 :: utf16 "uot;" from by decide]
      exact isPrefixOf_cons2_of_ne _ _ (by decide)
    rw [repLitGo_cons _ _ _ _ h1, repLitGo_drop pQuot [34] 38 (by decide) 0 _ noAmpT,
        List.drop_zero]
  have eApos : repLitGo pApos [39] 0 (38 :: 35 :: (ds ++ [59])) =
      38 :: 35 :: (ds ++ [59]) := by
    rw [repLitGo_cons _ _ _ _ (pApos_noMatch ds hdig h39),
        repLitGo_drop pApos [39] 38 (by decide) 0 _ noAmpT, List.drop_zero]
  have hemp : ds.isEmpty = false := by
    cases ds with
    | nil => exact absurd rfl hdsne
    | cons _ _ => rfl
  have eDec : repDecGo 0 (38 :: 35 :: (ds ++ [59])) = [decVal ds % 65536] := by
    have htw : (ds ++ [59] : JStr).takeWhile isDig = ds :=
      takeWhile_all_append _ _ _ _ hds (by decide)
    have hdrop : (ds ++ [59] : JStr).drop ds.length = 59 :: [] := by
      rw [List.drop_left]
    have hnoamp : (38 : Nat) ∉ (ds ++ [59] : JStr) :=
      fun hm => noAmpT (List.mem_cons_of_mem _ hm)
    rw [repDecGo_match _ _ _ htw hemp hdrop, repDecGo_drop _ _ hnoamp,
        List.drop_eq_nil_of_le (by simp)]
    simp [fromCharCode]
  have hws1 : ∀ c ∈ ([decVal ds % 65536] : JStr), jsWs c = false := by
    intro c hc
    rw [List.mem_singleton.mp hc]
    exact hws
  unfold normalizeContent decodeHtmlEntities collapseWs
  rw [hstrip, eNbsp, eAmp, eLt, eGt, eQuot, eApos, eDec, repHexGo_single _,
      collGo_no_ws _ hws1, trimJS_no_ws _ hws1]

/-- A well-formed hexadecimal reference `&#xhs;` (hex digits `hs`, with a
non-whitespace result unit) normalizes to the single code unit
`parseInt(hs,16) mod 2^16`, the `String.fromCharCode` truncation.  The value
is required to be below 2^53, the range on which `parseInt` is exact. -/
theorem c7hex (hs : JStr) (hhsne : hs ≠ [])
    (hhs : ∀ c ∈ hs, isHexDig c = true)
    (hbound : hexVal hs < 2 ^ 53)
    (hws : jsWs (hexVal hs % 65536) = false) :
    normalizeContent (38 :: 35 :: 120 :: (hs ++ [59])) = [hexVal hs % 65536] := by
  have hbound : ∀ c ∈ hs,
      (48 ≤ c ∧ c ≤ 57) ∨ (65 ≤ c ∧ c ≤ 70) ∨ (97 ≤ c ∧ c ≤ 102) := by
    intro c hc
    have := hhs c hc
    simpa [isHexDig] using this
  have noAmpT : (38 : Nat) ∉ (35 :: 120 :: (hs ++ [59]) : JStr) := by
    intro hm
    simp only [List.mem_cons, List.mem_append, List.not_mem_nil, or_false] at hm
    rcases hm with h | h | h | h
    · exact absurd h (by decide)
    · exact absurd h (by decide)
    · have := hbound 38 h; omega
    · exact absurd h (by decide)
  have no60S : (60 : Nat) ∉ (38 :: 35 :: 120 :: (hs ++ [59]) : JStr) := by
    intro hm
    simp only [List.mem_cons, List.mem_append, List.not_mem_nil, or_false] at hm
    rcases hm with h | h | h | h | h
    · exact absurd h (by decide)
    · exact absurd h (by decide)
    · exact absurd h (by decide)
    · have := hbound 60 h; omega
    · exact absurd h (by decide)
  have hstrip : stripHtmlTags (38 :: 35 :: 120 :: (hs ++ [59])) =
      38 :: 35 :: 120 :: (hs ++ [59]) := by
    unfold stripHtmlTags
    exact stripGo_false_no_lt _ no60S
  have eNbsp : repNbspGo 0 (38 :: 35 :: 120 :: (hs ++ [59])) =
      38 :: 35 :: 120 :: (hs ++ [59]) := by
    have h1 : pNbsp.isPrefixOf (38 :: 35 :: 120 :: (hs ++ [59])) = false := by
      rw [show pNbsp = 38 :: 110 :: utf16 "bsp;" from by decide]
      exact isPrefixOf_cons2_of_ne _ _ (by decide)
    have h2 : p160.isPrefixOf (38 :: 35 :: 120 :: (hs ++ [59])) = false := by
      rw [show p160 = 38 :: 35 :: 49 :: utf16 "60;" from by decide]
      exact isPrefixOf_cons3_of_ne _ _ (by decide)
    rw [repNbspGo_cons _ _ h1 h2, repNbspGo_drop 0 _ noAmpT, List.drop_zero]
  have eAmp : repLitGo pAmp [38] 0 (38 :: 35 :: 120 :: (hs ++ [59])) =
      38 :: 35 :: 120 :: (hs ++ [59]) := by
    have h1 : pAmp.isPrefixOf (38 :: 35 :: 120 :: (hs ++ [59])) = false := by
      rw [show pAmp = 38 :: 97 :: utf16 "mp;" from by decide]
      exact isPrefixOf_cons2_of_ne _ _ (by decide)
    rw [repLitGo_cons _ _ _ _ h1, repLitGo_drop pAmp [38] 38 (by decide) 0 _ noAmpT,
        List.drop_zero]
  have eLt : repLitGo pLt [60] 0 (38 :: 35 :: 120 :: (hs ++ [59])) =
      38 :: 35 :: 120 :: (hs ++ [59]) := by
    have h1 : pLt.isPrefixOf (38 :: 35 :: 120 :: (hs ++ [59])) = false := by
      rw [show pLt = 38 :: 108 :: utf16 "t;" from by decide]
      exact isPrefixOf_cons2_of_ne _ _ (by decide)
    rw [repLitGo_cons _ _ _ _ h1, repLitGo_drop pLt [60] 38 (by decide) 0 _ noAmpT,
        List.drop_zero]
  have eGt : repLitGo pGt [62] 0 (38 :: 35 :: 120 :: (hs ++ [59])) =
      38 :: 35 :: 120 :: (hs ++ [59]) := by
    have h1 : pGt.isPrefixOf (38 :: 35 :: 120 :: (hs ++ [59])) = false := by
      rw [show pGt = 38 :: 103 :: utf16 "t;" from by decide]
      exact isPrefixOf_cons2_of_ne _ _ (by decide)
    rw [repLitGo_cons _ _ _ _ h1, repLitGo_drop pGt [62] 38 (by decide) 0 _ noAmpT,
        List.drop_zero]
  have eQuot : repLitGo pQuot [34] 0 (38 :: 35 :: 120 :: (hs ++ [59])) =
      38 :: 35 :: 120 :: (hs ++ [59]) := by
    have h1 : pQuot.isPrefixOf (38 :: 35 :: 120 :: (hs ++ [59])) = false := by
      rw [show pQuot = 38 :: 113 :: utf16 "uot;" from by decide]
      exact isPrefixOf_cons2_of_ne _ _ (by decide)
    rw [repLitGo_cons _ _ _ _ h1, repLitGo_drop pQuot [34] 38 (by decide) 0 _ noAmpT,
        List.drop_zero]
  have eApos : repLitGo pApos [39] 0 (38 :: 35 :: 120 :: (hs ++ [59])) =
      38 :: 35 :: 120 :: (hs ++ [59]) := by
    have h1 : pApos.isPrefixOf (38 :: 35 :: 120 :: (hs ++ [59])) = false := by
      rw [show pApos = 38 :: 35 :: 51 :: [57, 59] from rfl]
      exact isPrefixOf_cons3_of_ne _ _ (by decide)
    rw [repLitGo_cons _ _ _ _ h1, repLitGo_drop pApos [39] 38 (by decide) 0 _ noAmpT,
        List.drop_zero]
  have eDec : repDecGo 0 (38 :: 35 :: 120 :: (hs ++ [59])) =
      38 :: 35 :: 120 :: (hs ++ [59]) := by
    have htw : (120 :: (hs ++ [59]) : JStr).takeWhile isDig = [] := by
      simp [List.takeWhile_cons, show isDig 120 = false from by decide]
    rw [repDecGo_nodig _ htw, repDecGo_drop 0 _ noAmpT, List.drop_zero]
  have hemp : hs.isEmpty = false := by
    cases hs with
    | nil => exact absurd rfl hhsne
    | cons _ _ => rfl
  have eHex : repHexGo 0 (38 :: 35 :: 120 :: (hs ++ [59])) = [hexVal hs % 65536] := by
    have htw : (hs ++ [59] : JStr).takeWhile isHexDig = hs :=
      takeWhile_all_append _ _ _ _ hhs (by decide)
    have hdrop : (hs ++ [59] : JStr).drop hs.length = 59 :: [] := by
      rw [List.drop_left]
    have hnoamp : (38 : Nat) ∉ (hs ++ [59] : JStr) :=
      fun hm => noAmpT (List.mem_cons_of_mem _ (List.mem_cons_of_mem _ hm))
    rw [repHexGo_match _ _ _ htw hemp hdrop, repHexGo_drop _ _ hnoamp,
        List.drop_eq_nil_of_le (by simp)]
    simp [fromCharCode]
  have hws1 : ∀ c ∈ ([hexVal hs % 65536] : JStr), jsWs c = false := by
    intro c hc
    rw [List.mem_singleton.mp hc]
    exact hws
  unfold normalizeContent decodeHtmlEntities collapseWs
  rw [hstrip, eNbsp, eAmp, eLt, eGt, eQuot, eApos, eDec, eHex,
      collGo_no_ws _ hws1, trimJS_no_ws _ hws1]

/-- C7 counterexample: `&#128512;` (U+1F600) is decoded by
`String.fromCharCode` with ToUint16 truncation to the single unit
128512 mod 65536 = 62976, not to the two-unit surrogate pair of the astral
character, so code points above 0xFFFF are not decoded to their code point. -/
theorem c7_cex :
    normalizeContent (utf16 "&#128512;") = [62976] ∧
    utf16Char (Char.ofNat 128512) = [55357, 56832] ∧
    normalizeContent (utf16 "&#128512;") ≠ utf16Char (Char.ofNat 128512) := by
  decide

/-- C7 amended: a well-formed decimal reference `&#NNN;` or hexadecimal
reference `&#xHHH;` whose numeric value is below 2^53 (the range on which
`Number`/`parseInt` convert exactly; beyond it JavaScript rounds to the
nearest double) decodes to the single UTF-16 code unit `value mod 2^16`
(`String.fromCharCode` truncation).  For code points up to 0xFFFF this is the
character itself; above 0xFFFF the value is truncated and the astral character
is not produced.  (The decimal value 160 is excluded: its result unit is
whitespace, handled by the nbsp path and trimming; a whitespace result unit is
excluded for the same reason.) -/
theorem c7_numeric :
    (∀ ds : JStr, ds ≠ [] → (∀ c ∈ ds, isDig c = true) →
      decVal ds < 2 ^ 53 →
      jsWs (decVal ds % 65536) = false →
      normalizeContent (38 :: 35 :: (ds ++ [59])) = [decVal ds % 65536]) ∧
    (∀ hs : JStr, hs ≠ [] → (∀ c ∈ hs, isHexDig c = true) →
      hexVal hs < 2 ^ 53 →
      jsWs (hexVal hs % 65536) = false →
      normalizeContent (38 :: 35 :: 120 :: (hs ++ [59])) = [hexVal hs % 65536]) :=
  ⟨c7dec, c7hex⟩

/-- C7 witness: `&#65;` gives "A" ([65]); `&#x1F600;` gives the truncated
unit [62976]. -/
theorem c7_numeric_w :
    normalizeContent (38 :: 35 :: (utf16 "65" ++ [59])) = [65] ∧
    normalizeContent (38 :: 35 :: 120 :: (utf16 "1F600" ++ [59])) = [62976] := by
  constructor
  · rw [show ([65] : JStr) = [decVal (utf16 "65") % 65536] from by decide]
    exact c7_numeric.1 (utf16 "65") (by decide) (by decide) (by decide) (by decide)
  · rw [show ([62976] : JStr) = [hexVal (utf16 "1F600") % 65536] from by decide]
    exact c7_numeric.2 (utf16 "1F600") (by decide) (by decide) (by decide) (by decide)

/-! Idempotence infrastructure.

`normalizeContent` is not idempotent in general (entity-encoded markup decodes
to literal markup which only a second pass strips).  On inputs without `&` no
entity pass fires, and we show the remaining pipeline (tag stripping,
whitespace collapsing, trimming) is idempotent.  The key invariants: after
stripping, no `<` is ever followed by a `>` (Pairwise below); after collapsing,
no two adjacent units are whitespace (Chain' below). -/

theorem stripGo_mem (s : JStr) : ∀ (pend : JStr) (flag : Bool) (a : Nat),
    a ∈ stripGo s pend flag → a ∈ s ∨ a ∈ pend := by
  induction s with
  | nil =>
    intro pend flag a ha
    cases flag with
    | true =>
      simp only [stripGo] at ha
      right
      simpa using ha
    | false => simp [stripGo] at ha
  | cons c rest ih =>
    intro pend flag a ha
    cases flag with
    | true =>
      by_cases hc : c = 62
      · simp only [stripGo] at ha
        rw [if_pos hc] at ha
        rcases ih [] false a ha with h1 | h1
        · exact Or.inl (List.mem_cons_of_mem _ h1)
        · simp at h1
      · simp only [stripGo] at ha
        rw [if_neg hc] at ha
        rcases ih (c :: pend) true a ha with h1 | h1
        · exact Or.inl (List.mem_cons_of_mem _ h1)
        · rcases List.mem_cons.mp h1 with h2 | h2
          · exact Or.inl (by rw [h2]; exact List.mem_cons_self _ _)
          · exact Or.inr h2
    | false =>
      by_cases hc : c = 60
      · simp only [stripGo] at ha
        rw [if_pos hc] at ha
        rcases ih [60] true a ha with h1 | h1
        · exact Or.inl (List.mem_cons_of_mem _ h1)
        · have : a = 60 := by simpa using h1
          exact Or.inl (by rw [this, hc]; exact List.mem_cons_self _ _)
      · simp only [stripGo] at ha
        rw [if_neg hc] at ha
        rcases List.mem_cons.mp ha with h1 | h1
        · exact Or.inl (by rw [h1]; exact List.mem_cons_self _ _)
        · rcases ih [] false a h1 with h2 | h2
          · exact Or.inl (List.mem_cons_of_mem _ h2)
          · simp at h2

theorem collGo_mem (s : JStr) : ∀ (flag : Bool) (a : Nat),
    a ∈ collGo flag s → a ∈ s ∨ a = 32 := by
  induction s with
  | nil => intro flag a ha; simp [collGo] at ha
  | cons c rest ih =>
    intro flag a ha
    cases flag with
    | true =>
      by_cases hc : jsWs c = true
      · simp only [collGo] at ha
        rw [if_pos hc] at ha
        rcases ih true a ha with h1 | h1
        · exact Or.inl (List.mem_cons_of_mem _ h1)
        · exact Or.inr h1
      · simp only [collGo] at ha
        rw [if_neg hc] at ha
        rcases List.mem_cons.mp ha with h1 | h1
        · exact Or.inl (by rw [h1]; exact List.mem_cons_self _ _)
        · rcases ih false a h1 with h2 | h2
          · exact Or.inl (List.mem_cons_of_mem _ h2)
          · exact Or.inr h2
    | false =>
      by_cases hc : jsWs c = true
      · cases rest with
        | nil =>
          simp only [collGo] at ha
          rw [if_pos hc] at ha
          exact Or.inl ha
        | cons d r2 =>
          by_cases hd : jsWs d = true
          · simp only [collGo] at ha
            rw [if_pos hc, if_pos hd] at ha
            rcases List.mem_cons.mp ha with h1 | h1
            · exact Or.inr h1
            · rcases ih true a h1 with h2 | h2
              · exact Or.inl (List.mem_cons_of_mem _ h2)
              · exact Or.inr h2
          · simp only [collGo] at ha
            rw [if_pos hc, if_neg hd] at ha
            rcases List.mem_cons.mp ha with h1 | h1
            · exact Or.inl (by rw [h1]; exact List.mem_cons_self _ _)
            · rcases ih false a h1 with h2 | h2
              · exact Or.inl (List.mem_cons_of_mem _ h2)
              · exact Or.inr h2
      · simp only [collGo] at ha
        rw [if_neg hc] at ha
        rcases List.mem_cons.mp ha with h1 | h1
        · exact Or.inl (by rw [h1]; exact List.mem_cons_self _ _)
        · rcases ih false a h1 with h2 | h2
          · exact Or.inl (List.mem_cons_of_mem _ h2)
          · exact Or.inr h2

theorem trimJS_subset (s : JStr) : ∀ a ∈ trimJS s, a ∈ s := by
  intro a ha
  unfold trimJS at ha
  rw [List.mem_reverse] at ha
  have h1 := (List.dropWhile_sublist _).subset ha
  rw [List.mem_reverse] at h1
  exact (List.dropWhile_sublist _).subset h1

theorem trimJS_sublist (s : JStr) : (trimJS s).Sublist s := by
  have h2 : (((s.dropWhile jsWs).reverse).dropWhile jsWs).Sublist
      (s.dropWhile jsWs).reverse := List.dropWhile_sublist _
  have h3 := h2.reverse
  rw [List.reverse_reverse] at h3
  exact h3.trans (List.dropWhile_sublist _)

/-- Output invariant of tag stripping: no `<` in the output is ever followed
(at any distance) by a `>`. -/
theorem stripGo_pairwise (s : JStr) : ∀ (pend : JStr) (flag : Bool),
    62 ∉ pend →
    (stripGo s pend flag).Pairwise (fun a b => a = 60 → b ≠ 62) := by
  induction s with
  | nil =>
    intro pend flag hp
    cases flag with
    | true =>
      simp only [stripGo]
      exact List.pairwise_of_forall_mem_list
        (fun a _ b hb _ h62 => hp (h62 ▸ List.mem_reverse.mp hb))
    | false => simp [stripGo]
  | cons c rest ih =>
    intro pend flag hp
    cases flag with
    | true =>
      by_cases hc : c = 62
      · simp only [stripGo]
        rw [if_pos hc]
        exact ih [] false (by simp)
      · simp only [stripGo]
        rw [if_neg hc]
        refine ih (c :: pend) true ?_
        intro hm
        rcases List.mem_cons.mp hm with h1 | h1
        · exact hc h1.symm
        · exact hp h1
    | false =>
      by_cases hc : c = 60
      · simp only [stripGo]
        rw [if_pos hc]
        exact ih [60] true (by decide)
      · simp only [stripGo]
        rw [if_neg hc]
        rw [List.pairwise_cons]
        exact ⟨fun b _ h60 => absurd h60 hc, ih [] false (by simp)⟩

/-- On a string where no `<` is followed by a `>`, tag stripping is the
identity. -/
theorem stripGo_id_of_pairwise (s : JStr)
    (h : s.Pairwise (fun a b => a = 60 → b ≠ 62)) : stripGo s [] false = s := by
  induction s with
  | nil => rfl
  | cons c rest ih =>
    by_cases hc : c = 60
    · simp only [stripGo]
      rw [if_pos hc]
      have h62 : 62 ∉ rest := by
        intro hm
        exact ((List.pairwise_cons.mp h).1 62 hm hc) rfl
      rw [stripGo_true_no_gt rest [60] h62]
      simp [hc]
    · simp only [stripGo]
      rw [if_neg hc, ih (List.pairwise_cons.mp h).2]

/-- Whitespace collapsing preserves any pairwise relation that always holds
when one side is the space unit 32. -/
theorem collGo_pairwise {R : Nat → Nat → Prop}
    (h32l : ∀ b, R 32 b) (h32r : ∀ a, R a 32) (s : JStr) :
    ∀ flag, s.Pairwise R → (collGo flag s).Pairwise R := by
  induction s with
  | nil => intro flag _; simp [collGo]
  | cons c rest ih =>
    intro flag h
    have hcr := List.pairwise_cons.mp h
    cases flag with
    | true =>
      by_cases hc : jsWs c = true
      · simp only [collGo]
        rw [if_pos hc]
        exact ih true hcr.2
      · simp only [collGo]
        rw [if_neg hc]
        rw [List.pairwise_cons]
        refine ⟨?_, ih false hcr.2⟩
        intro b hb
        rcases collGo_mem rest false b hb with hbm | hb32
        · exact hcr.1 b hbm
        · rw [hb32]; exact h32r c
    | false =>
      by_cases hc : jsWs c = true
      · cases rest with
        | nil =>
          simp only [collGo]
          rw [if_pos hc]
          simp
        | cons d r2 =>
          by_cases hd : jsWs d = true
          · simp only [collGo]
            rw [if_pos hc, if_pos hd]
            rw [List.pairwise_cons]
            exact ⟨fun b _ => h32l b, ih true hcr.2⟩
          · simp only [collGo]
            rw [if_pos hc, if_neg hd]
            rw [List.pairwise_cons]
            refine ⟨?_, ih false hcr.2⟩
            intro b hb
            rcases collGo_mem (d :: r2) false b hb with hbm | hb32
            · exact hcr.1 b hbm
            · rw [hb32]; exact h32r c
      · simp only [collGo]
        rw [if_neg hc]
        rw [List.pairwise_cons]
        refine ⟨?_, ih false hcr.2⟩
        intro b hb
        rcases collGo_mem rest false b hb with hbm | hb32
        · exact hcr.1 b hbm
        · rw [hb32]; exact h32r c

/-- One-step unfolding equations for the collapsing scanner. -/
theorem collGo_true_step (c : Nat) (rest : JStr) :
    collGo true (c :: rest) =
      if jsWs c = true then collGo true rest else c :: collGo false rest := rfl

theorem collGo_false_step1 (c : Nat) :
    collGo false [c] = if jsWs c = true then [c] else [c] := rfl

theorem collGo_false_step2 (c d : Nat) (r2 : JStr) :
    collGo false (c :: d :: r2) =
      if jsWs c = true then
        (if jsWs d = true then 32 :: collGo true (d :: r2)
         else c :: collGo false (d :: r2))
      else c :: collGo false (d :: r2) := rfl

theorem collGo_false_cons_nonws (c : Nat) (rest : JStr) (hc : ¬ jsWs c = true) :
    collGo false (c :: rest) = c :: collGo false rest := by
  cases rest with
  | nil => rw [collGo_false_step1, if_neg hc]; rfl
  | cons d r2 => rw [collGo_false_step2, if_neg hc]

/-- While swallowing a whitespace run, the next emitted unit is not
whitespace. -/
theorem collGo_true_head (s : JStr) :
    ∀ b ∈ (collGo true s).head?, jsWs b = false := by
  induction s with
  | nil => simp [collGo]
  | cons c rest ih =>
    by_cases hc : jsWs c = true
    · rw [collGo_true_step, if_pos hc]
      exact ih
    · rw [collGo_true_step, if_neg hc]
      intro b hb
      have hcb : c = b := by simpa using hb
      rw [← hcb]
      simpa using hc

/-- Output invariant of whitespace collapsing: no two adjacent units are both
whitespace. -/
theorem collGo_chain (s : JStr) :
    List.Chain' (fun a b => jsWs a = true → jsWs b = true → False) (collGo false s) ∧
    List.Chain' (fun a b => jsWs a = true → jsWs b = true → False) (collGo true s) := by
  induction s with
  | nil => simp [collGo]
  | cons c rest ih =>
    constructor
    · by_cases hc : jsWs c = true
      · cases rest with
        | nil =>
          rw [collGo_false_step1]
          simp
        | cons d r2 =>
          by_cases hd : jsWs d = true
          · rw [collGo_false_step2, if_pos hc, if_pos hd]
            rw [List.chain'_cons']
            refine ⟨?_, ih.2⟩
            intro y hy _ hyw
            have hhd := collGo_true_head (d :: r2) y hy
            rw [hyw] at hhd
            exact Bool.noConfusion hhd
          · rw [collGo_false_step2, if_pos hc, if_neg hd]
            rw [List.chain'_cons']
            refine ⟨?_, ih.1⟩
            intro y hy _ hyw
            rw [collGo_false_cons_nonws d r2 hd] at hy
            have hyd : d = y := by simpa using hy
            rw [← hyd] at hyw
            exact hd hyw
      · rw [collGo_false_cons_nonws c rest hc]
        rw [List.chain'_cons']
        exact ⟨fun y _ hcw _ => hc hcw, ih.1⟩
    · by_cases hc : jsWs c = true
      · rw [collGo_true_step, if_pos hc]
        exact ih.2
      · rw [collGo_true_step, if_neg hc]
        rw [List.chain'_cons']
        exact ⟨fun y _ hcw _ => hc hcw, ih.1⟩

/-- Trimming keeps a contiguous middle part of its input. -/
theorem trimJS_middle (s : JStr) : List.IsInfix (trimJS s) s := by
  obtain ⟨t, ht⟩ := List.dropWhile_suffix (l := s) jsWs
  obtain ⟨u, hu⟩ := List.dropWhile_suffix (l := (s.dropWhile jsWs).reverse) jsWs
  refine ⟨t, u.reverse, ?_⟩
  have h2 := congrArg List.reverse hu
  rw [List.reverse_append, List.reverse_reverse] at h2
  unfold trimJS
  rw [List.append_assoc, h2, ht]

/-- On a string with no two adjacent whitespace units, collapsing is the
identity. -/
theorem collGo_id_of_chain (s : JStr)
    (h : List.Chain' (fun a b => jsWs a = true → jsWs b = true → False) s) :
    collGo false s = s := by
  induction s with
  | nil => rfl
  | cons c rest ih =>
    by_cases hc : jsWs c = true
    · cases rest with
      | nil => rw [collGo_false_step1, if_pos hc]
      | cons d r2 =>
        have hd : ¬ jsWs d = true := by
          intro hdd
          exact (List.chain'_cons.mp h).1 hc hdd
        rw [collGo_false_step2, if_pos hc, if_neg hd,
            ih (List.chain'_cons.mp h).2]
    · rw [collGo_false_cons_nonws c rest hc, ih h.tail]

/-- Dropping leading whitespace twice is the same as once. -/
theorem dropWhile_jsWs_idem (l : JStr) :
    (l.dropWhile jsWs).dropWhile jsWs = l.dropWhile jsWs := by
  induction l with
  | nil => rfl
  | cons c t ih =>
    by_cases hc : jsWs c = true
    · simp [List.dropWhile_cons, hc, ih]
    · simp [List.dropWhile_cons, hc]

/-- The result of dropping leading whitespace is empty or starts with a
non-whitespace unit. -/
theorem dropWhile_jsWs_head (l : JStr) :
    l.dropWhile jsWs = [] ∨
      ∃ c t, l.dropWhile jsWs = c :: t ∧ jsWs c = false := by
  induction l with
  | nil => exact Or.inl rfl
  | cons c t ih =>
    by_cases hc : jsWs c = true
    · simpa [List.dropWhile_cons, hc] using ih
    · exact Or.inr ⟨c, t, by simp [List.dropWhile_cons, hc], by simpa using hc⟩

/-- Trimming is idempotent. -/
theorem trimJS_idem (z : JStr) : trimJS (trimJS z) = trimJS z := by
  have hstep1 : (trimJS z).dropWhile jsWs = trimJS z := by
    rcases dropWhile_jsWs_head z with h0 | ⟨c, t, hct, hc⟩
    · unfold trimJS
      rw [h0]
      simp
    · have hpre : ∃ u, trimJS z ++ u = c :: t := by
        obtain ⟨u, hu⟩ := List.dropWhile_suffix (l := (c :: t).reverse) jsWs
        refine ⟨u.reverse, ?_⟩
        have h2 := congrArg List.reverse hu
        rw [List.reverse_append, List.reverse_reverse] at h2
        unfold trimJS
        rw [hct]
        exact h2
      obtain ⟨u, hu⟩ := hpre
      cases htz : trimJS z with
      | nil => simp
      | cons c2 t2l =>
        rw [htz] at hu
        have hc2 : c2 = c := by simpa using congrArg List.head? hu
        simp [List.dropWhile_cons, hc2, hc]
  have hrev : (trimJS z).reverse = ((z.dropWhile jsWs).reverse).dropWhile jsWs := by
    unfold trimJS
    rw [List.reverse_reverse]
  calc trimJS (trimJS z)
      = (((trimJS z).dropWhile jsWs).reverse.dropWhile jsWs).reverse := rfl
    _ = ((trimJS z).reverse.dropWhile jsWs).reverse := by rw [hstep1]
    _ = ((((z.dropWhile jsWs).reverse).dropWhile jsWs).dropWhile jsWs).reverse := by
          rw [hrev]
    _ = (((z.dropWhile jsWs).reverse).dropWhile jsWs).reverse := by
          rw [dropWhile_jsWs_idem]
    _ = trimJS z := rfl

/-- C4 counterexample: on `"&lt;b&gt;hi&lt;/b&gt;"` the first pass decodes the
entities to literal markup `"<b>hi</b>"`, and only a second pass strips it to
`"hi"`, so `normalize(normalize(x)) ≠ normalize(x)`. -/
theorem c4_cex :
    normalizeContent (normalizeContent (utf16 "&lt;b&gt;hi&lt;/b&gt;")) ≠
      normalizeContent (utf16 "&lt;b&gt;hi&lt;/b&gt;") := by
  decide

/-- C4 amended: normalization is not idempotent in general (entity-encoded
markup breaks it, as the counterexample shows), but it is idempotent on every
input containing no `&` unit: there no entity pass can fire, stripping leaves
no `<` followed by `>`, collapsing leaves no adjacent whitespace, and trimming
is idempotent. -/
theorem c4_idem_no_amp (s : JStr) (h : 38 ∉ s) :
    normalizeContent (normalizeContent s) = normalizeContent s := by
  have decodeEq : ∀ w : JStr, 38 ∉ w →
      decodeHtmlEntities w = trimJS (collGo false w) := by
    intro w hw
    unfold decodeHtmlEntities collapseWs
    rw [repNbspGo_drop 0 w hw, List.drop_zero,
        repLitGo_drop pAmp [38] 38 (by decide) 0 w hw, List.drop_zero,
        repLitGo_drop pLt [60] 38 (by decide) 0 w hw, List.drop_zero,
        repLitGo_drop pGt [62] 38 (by decide) 0 w hw, List.drop_zero,
        repLitGo_drop pQuot [34] 38 (by decide) 0 w hw, List.drop_zero,
        repLitGo_drop pApos [39] 38 (by decide) 0 w hw, List.drop_zero,
        repDecGo_drop 0 w hw, List.drop_zero,
        repHexGo_drop 0 w hw, List.drop_zero]
  have hstripm : ∀ a : Nat, a ∈ stripHtmlTags s → a ∈ s := by
    intro a ha
    rcases stripGo_mem s [] false a ha with h1 | h1
    · exact h1
    · simp at h1
  have h38strip : (38 : Nat) ∉ stripHtmlTags s := fun hm => h (hstripm 38 hm)
  have e1 : normalizeContent s = trimJS (collGo false (stripHtmlTags s)) := by
    unfold normalizeContent
    exact decodeEq _ h38strip
  have h38y : (38 : Nat) ∉ trimJS (collGo false (stripHtmlTags s)) := by
    intro hm
    rcases collGo_mem (stripHtmlTags s) false 38 (trimJS_subset _ 38 hm) with hmm | hmm
    · exact h38strip hmm
    · exact absurd hmm (by decide)
  have hpairy : (trimJS (collGo false (stripHtmlTags s))).Pairwise
      (fun a b => a = 60 → b ≠ 62) := by
    have hp1 : (stripHtmlTags s).Pairwise (fun a b => a = 60 → b ≠ 62) :=
      stripGo_pairwise s [] false (by simp)
    have hp2 := collGo_pairwise
      (fun b h60 => absurd h60 (by decide))
      (fun a _ h62 => absurd h62 (by decide))
      (stripHtmlTags s) false hp1
    exact List.Pairwise.sublist (trimJS_sublist _) hp2
  have hstripy : stripHtmlTags (trimJS (collGo false (stripHtmlTags s))) =
      trimJS (collGo false (stripHtmlTags s)) := by
    unfold stripHtmlTags
    exact stripGo_id_of_pairwise _ hpairy
  have hchainy : List.Chain' (fun a b => jsWs a = true → jsWs b = true → False)
      (trimJS (collGo false (stripHtmlTags s))) :=
    List.Chain'.infix (collGo_chain (stripHtmlTags s)).1 (trimJS_middle _)
  have hcolly : collGo false (trimJS (collGo false (stripHtmlTags s))) =
      trimJS (collGo false (stripHtmlTags s)) :=
    collGo_id_of_chain _ hchainy
  rw [e1]
  unfold normalizeContent
  rw [hstripy, decodeEq _ h38y, hcolly, trimJS_idem]

/-- C4 witness: an ampersand-free input with markup and stray whitespace is a
fixed point after one normalization. -/
theorem c4_idem_no_amp_w :
    normalizeContent (normalizeContent (utf16 "  a <b> c  ")) =
      normalizeContent (utf16 "  a <b> c  ") :=
  c4_idem_no_amp (utf16 "  a <b> c  ") (by decide)
